import Mathlib

/-!
# ptsim: a single-level page-table simulator

Shallow embedding of `src/ptsim.c`.  The simulated RAM `unsigned char mem[MEM_SIZE]` is a
map from indices to bytes, C `int` values are integers, and every procedure takes the memory
it runs on and gives back the memory it leaves.  An access to `mem` at an index computed from
the inputs is bounds checked: an index outside `0 .. MEM_SIZE-1` has no cell in the array, and
the procedure then has no defined result.  Output written with `printf` is not modelled.
Integer arithmetic is exact: for the non-negative `int` inputs of the theorems below no
intermediate value of the C code leaves the range of a 32-bit `int`.
-/

namespace Ptsim

/-- An `unsigned char`. -/
abbrev Byte := Fin 256

/-- The contents of `mem`. Only the indices `0 ≤ a < MEM_SIZE` are cells of the array. -/
abbrev Mem := Int → Byte

def MEM_SIZE : Int := 16384
def PAGE_SIZE : Int := 256
def PAGE_COUNT : Int := 64
def PAGE_SHIFT : Int := 8
def PTP_OFFSET : Int := 64

/-- Conversion of an `int` to `unsigned char` on assignment: reduction modulo 256. -/
def toByte (v : Int) : Byte := ⟨(v % 256).toNat, by omega⟩

/-- The memory `m` after `mem[a] = v`. -/
def setByte (m : Mem) (a : Int) (v : Byte) : Mem := fun x => if x = a then v else m x

/-- Read of `mem[a]`: defined only inside the array. -/
def load (m : Mem) (a : Int) : Option Byte :=
  if 0 ≤ a ∧ a < MEM_SIZE then some (m a) else none

/-- Write `mem[a] = v`: defined only inside the array. -/
def store (m : Mem) (a : Int) (v : Int) : Option Mem :=
  if 0 ≤ a ∧ a < MEM_SIZE then some (setByte m a (toByte v)) else none

/-- How a procedure that may call `exit` ends: it returns a value and leaves a memory, it
terminates the simulator with an exit status, or it accesses `mem` outside the array. -/
inductive Outcome (α : Type) where
  | ret (v : α) (m : Mem) : Outcome α
  | exited (status : Int) (m : Mem) : Outcome α
  | fault : Outcome α

/-- `get_address(page, offset)`: `(page << PAGE_SHIFT) | offset`. -/
def get_address (page offset : Int) : Int := Int.lor (page <<< PAGE_SHIFT) offset

/-- The statically zeroed array `mem` at program start. -/
def mem0 : Mem := fun _ => 0

/-- `initialize_mem()`: `memset(mem, 0, MEM_SIZE)`, then `mem[get_address(0, 0)] = 1`. -/
def initialize_mem (m : Mem) : Mem :=
  setByte (fun a => if 0 ≤ a ∧ a < MEM_SIZE then 0 else m a) (get_address 0 0) 1

/-- `get_page_table(proc_num)`: `mem[get_address(0, PTP_OFFSET + proc_num)]`. -/
def get_page_table (m : Mem) (proc_num : Int) : Option Byte :=
  load m (get_address 0 (PTP_OFFSET + proc_num))

/-- First loop of `allocate_page`, `k` iterations from index `i`: counts in `free_pages` the
bytes `mem[i]` that are 0. -/
def count_free (m : Mem) : Nat → Int → Int → Int
  | 0, _, free_pages => free_pages
  | k + 1, i, free_pages =>
    count_free m k (i + 1) (if m i = 0 then free_pages + 1 else free_pages)

/-- Second loop of `allocate_page`, `k` iterations from index `i`; `return 0xff` after the
loop. (`free_pages--` before `return i` changes a local that is not read again.) -/
def scan_free (m : Mem) (proc_num free_pages : Int) : Nat → Int → Outcome Int
  | 0, _ => .ret 0xff m
  | k + 1, i =>
    if free_pages = 0 ∧ proc_num ≠ 1 then .exited 1 m
    else if m i = 0 ∧ free_pages > 0 then .ret i (setByte m i 1)
    else scan_free m proc_num free_pages k (i + 1)

/-- `allocate_page(proc_num)`: both loops run over `i = 0 .. 63`. -/
def allocate_page (m : Mem) (proc_num : Int) : Outcome Int :=
  scan_free m proc_num (count_free m 64 0 0) 64 0

/-- `deallocate_page(p)`: `mem[p] = 0`. -/
def deallocate_page (m : Mem) (p : Int) : Option Mem := store m p 0

/-- The loop of `new_process`, `k` iterations from index `i`: allocate a page and write it
to `mem[get_address(page_table, i)]`. -/
def new_process_loop (proc_num page_table : Int) : Nat → Int → Mem → Outcome Unit
  | 0, _, m => .ret () m
  | k + 1, i, m =>
    match allocate_page m proc_num with
    | .ret new_page m1 =>
      match store m1 (get_address page_table i) new_page with
      | some m2 => new_process_loop proc_num page_table k (i + 1) m2
      | none => .fault
    | .exited s m1 => .exited s m1
    | .fault => .fault

/-- `new_process(proc_num, page_count)`. The loop `for (i = 0; i < page_count; i++)` runs
`page_count` times (not at all when `page_count` is negative). -/
def new_process (m : Mem) (proc_num page_count : Int) : Outcome Unit :=
  if page_count ≥ 64 then .ret () m
  else
    match allocate_page m proc_num with
    | .ret page_table m1 =>
      match store m1 (64 + proc_num) page_table with
      | some m2 => new_process_loop proc_num page_table page_count.toNat 0 m2
      | none => .fault
    | .exited s m1 => .exited s m1
    | .fault => .fault

/-- The body of the loop of `kill_process` at index `i`. -/
def kill_step (page_table i : Int) (m : Mem) : Option Mem :=
  let address := get_address page_table i
  if address ≠ 0 ∧ address ≠ ((m 0).val : Int) then
    match load m address with
    | some b => deallocate_page m (b.val : Int)
    | none => none
  else some m

/-- The loop of `kill_process`, `k` iterations from index `i`. -/
def kill_loop (page_table : Int) : Nat → Int → Mem → Option Mem
  | 0, _, m => some m
  | k + 1, i, m =>
    match kill_step page_table i m with
    | some m1 => kill_loop page_table k (i + 1) m1
    | none => none

/-- `kill_process(proc_num)`: the loop runs over `i = 1 .. PAGE_COUNT - 1`. -/
def kill_process (m : Mem) (proc_num : Int) : Option Mem :=
  match load m (proc_num + 64) with
  | some page_table_page =>
    match get_page_table m proc_num with
    | some page_table =>
      match kill_loop (page_table.val : Int) 63 1 m with
      | some m1 => deallocate_page m1 (page_table_page.val : Int)
      | none => none
    | none => none
  | none => none

/-- `get_physical_address(proc_num, virtual_address)`. -/
def get_physical_address (m : Mem) (proc_num virtual_address : Int) : Option Int :=
  match get_page_table m proc_num with
  | some page_table =>
    let virtual_page := virtual_address >>> (8 : Nat)
    let offset := Int.land virtual_address 255
    let physical_page := get_address (page_table.val : Int) virtual_page
    let physical_address := Int.lor (physical_page <<< (8 : Int)) offset
    some physical_address
  | none => none

/-- `store_value(proc_num, virtual_address, value)`: the memory it leaves. -/
def store_value (m : Mem) (proc_num virtual_address value : Int) : Option Mem :=
  match get_physical_address m proc_num virtual_address with
  | some physical_address => store m physical_address value
  | none => none

/-- `load_value(proc_num, virtual_address)`: the value it reads and prints. -/
def load_value (m : Mem) (proc_num virtual_address : Int) : Option Int :=
  match get_physical_address m proc_num virtual_address with
  | some physical_address =>
    match load m physical_address with
    | some value => some (value.val : Int)
    | none => none
  | none => none

/-- The commands of `main` that change `mem`. -/
inductive Cmd where
  | np (proc_num num_pages : Int)
  | kp (proc_num : Int)
  | sb (proc_num virtual_address value : Int)
  | lb (proc_num virtual_address : Int)

/-- One command of the dispatch loop of `main`. -/
def exec (m : Mem) : Cmd → Outcome Unit
  | .np p n => new_process m p n
  | .kp p =>
    match kill_process m p with
    | some m1 => .ret () m1
    | none => .fault
  | .sb p va x =>
    match store_value m p va x with
    | some m1 => .ret () m1
    | none => .fault
  | .lb p va =>
    match load_value m p va with
    | some _ => .ret () m
    | none => .fault

/-- The dispatch loop of `main` over a list of commands. -/
def run (m : Mem) : List Cmd → Outcome Unit
  | [] => .ret () m
  | c :: cs =>
    match exec m c with
    | .ret _ m1 => run m1 cs
    | .exited s m1 => .exited s m1
    | .fault => .fault

/-- The memory after `initialize_mem()` at the start of `main`. -/
def boot : Mem := initialize_mem mem0

/-- The indices `i, i+1, ..., i+k-1`. -/
def idxFrom (i : Int) : Nat → List Int
  | 0 => []
  | k + 1 => i :: idxFrom (i + 1) k

/-- The free pages of the bitmap `mem[0..63]`, lowest first. -/
def freeList (m : Mem) : List Int := (idxFrom 0 64).filter (fun i => m i = 0)

/-- A memory whose bitmap has no free page: every byte is 1. -/
def fullMem : Mem := fun _ => 1

/-- The memory an outcome carries (the zeroed memory when it carries none). -/
def Outcome.memory {α : Type} : Outcome α → Mem
  | .ret _ m => m
  | .exited _ m => m
  | .fault => mem0

/-- The byte at index `a` of the memory left by an outcome that returned. -/
def Outcome.byteAt {α : Type} (o : Outcome α) (a : Int) : Option Byte :=
  match o with
  | .ret _ m => some (m a)
  | _ => none

/-- The value returned by an outcome that returned. -/
def Outcome.value {α : Type} : Outcome α → Option α
  | .ret v _ => some v
  | _ => none

/-- The memory after `initialize_mem()` and `sb 5 261 2`: process 5 has no page table, so
the store goes to physical address 261, the byte at offset 5 of page 1. -/
def staleMem : Mem := setByte boot 261 2

/-- The memory after `initialize_mem()` and `sb 5 261 66`: the byte at offset 5 of page 1
holds 66, the index of the page-table-pointer slot of process 2. -/
def staleSlotMem : Mem := setByte boot 261 66

/-- A memory with page 0 marked allocated and exactly two free pages, 1 and 2. -/
def twoFreeMem : Mem := fun a => if a = 1 ∨ a = 2 then 0 else 1

/-! ## Address arithmetic -/

theorem lor_ofNat (a b : Nat) : Int.lor (a : Int) (b : Int) = ((a ||| b : Nat) : Int) := rfl

theorem shl8_ofNat (a : Nat) : ((a : Int) <<< (8 : Int)) = ((a <<< 8 : Nat) : Int) := by
  have h := Int.shiftLeft_coe_nat a 8
  simpa only [Nat.cast_ofNat] using h

theorem get_address_eq (page offset : Int) (hp : 0 ≤ page) (ho : 0 ≤ offset)
    (ho2 : offset < 256) : get_address page offset = page * 256 + offset := by
  obtain ⟨a, rfl⟩ := Int.eq_ofNat_of_zero_le hp
  obtain ⟨b, rfl⟩ := Int.eq_ofNat_of_zero_le ho
  have hb : b < 2 ^ 8 := by omega
  unfold get_address PAGE_SHIFT
  rw [shl8_ofNat, lor_ofNat, Nat.shiftLeft_eq, Nat.mul_comm, ← Nat.mul_add_lt_is_or hb]
  push_cast
  ring

theorem get_address_zero (x : Int) (hx : 0 ≤ x) : get_address 0 x = x := by
  obtain ⟨b, rfl⟩ := Int.eq_ofNat_of_zero_le hx
  unfold get_address PAGE_SHIFT
  have h := shl8_ofNat 0
  simp only [Nat.cast_zero, Nat.zero_shiftLeft] at h
  rw [h]
  show Int.lor ((0 : Nat) : Int) (b : Int) = _
  rw [lor_ofNat]; simp

/-! ## The allocator -/

theorem setByte_same (m : Mem) (a : Int) (v : Byte) : setByte m a v a = v := by
  simp [setByte]

theorem setByte_other (m : Mem) (a x : Int) (v : Byte) (h : x ≠ a) :
    setByte m a v x = m x := by
  simp [setByte, h]

theorem mem_idxFrom (k : Nat) (i a : Int) : a ∈ idxFrom i k ↔ i ≤ a ∧ a < i + k := by
  induction k generalizing i with
  | zero => simp [idxFrom]
  | succ k ih => simp [idxFrom, ih]; omega

theorem mem_freeList (m : Mem) (a : Int) : a ∈ freeList m ↔ 0 ≤ a ∧ a < 64 ∧ m a = 0 := by
  simp [freeList, mem_idxFrom, and_assoc]

theorem count_free_eq (m : Mem) (k : Nat) (i f : Int) :
    count_free m k i f = f + ((idxFrom i k).filter (fun j => m j = 0)).length := by
  induction k generalizing i f with
  | zero => simp [count_free, idxFrom]
  | succ k ih =>
    simp only [count_free, idxFrom, ih]
    by_cases h : m i = 0
    · simp [h]; omega
    · simp [h]

/-- The head of the filtered index list is the least free index of the range. -/
theorem filter_head_least (m : Mem) (k : Nat) (i a : Int) (rest : List Int)
    (h : (idxFrom i k).filter (fun j => m j = 0) = a :: rest) :
    i ≤ a ∧ a < i + k ∧ m a = 0 ∧ ∀ j, i ≤ j → j < a → m j ≠ 0 := by
  induction k generalizing i with
  | zero => simp [idxFrom] at h
  | succ k ih =>
    simp only [idxFrom] at h
    by_cases hi : m i = 0
    · simp [hi] at h
      obtain ⟨rfl, -⟩ := h
      refine ⟨le_refl _, by omega, hi, ?_⟩
      intro j h1 h2; omega
    · simp [hi] at h
      obtain ⟨h1, h2, h3, h4⟩ := ih (i + 1) h
      refine ⟨by omega, by omega, h3, ?_⟩
      intro j hj1 hj2
      by_cases hji : j = i
      · subst hji; exact hi
      · exact h4 j (by omega) hj2

theorem scan_free_cons (m : Mem) (p f : Int) (hf : 0 < f) (k : Nat) (i a : Int)
    (rest : List Int) (h : (idxFrom i k).filter (fun j => m j = 0) = a :: rest) :
    scan_free m p f k i = .ret a (setByte m a 1) := by
  induction k generalizing i with
  | zero => simp [idxFrom] at h
  | succ k ih =>
    simp only [idxFrom] at h
    have hf0 : ¬ (f = 0 ∧ p ≠ 1) := by omega
    by_cases hi : m i = 0
    · simp [hi] at h
      obtain ⟨rfl, -⟩ := h
      simp [scan_free, hi, hf]
      omega
    · simp [hi] at h
      simp only [scan_free, if_neg hf0]
      rw [if_neg (by simp [hi])]
      exact ih (i + 1) h

theorem scan_free_zero_ne (m : Mem) (p : Int) (hp : p ≠ 1) (k : Nat) (i : Int) :
    scan_free m p 0 (k + 1) i = .exited 1 m := by
  simp [scan_free, hp]

theorem scan_free_zero_one (m : Mem) (k : Nat) (i : Int) :
    scan_free m 1 0 k i = .ret 0xff m := by
  induction k generalizing i with
  | zero => simp [scan_free]
  | succ k ih => simp [scan_free, ih]

theorem filter_setByte (m : Mem) (k : Nat) (i a : Int) (rest : List Int)
    (h : (idxFrom i k).filter (fun j => m j = 0) = a :: rest) :
    (idxFrom i k).filter (fun j => setByte m a 1 j = 0) = rest := by
  induction k generalizing i with
  | zero => simp [idxFrom] at h
  | succ k ih =>
    simp only [idxFrom] at h
    by_cases hi : m i = 0
    · simp [hi] at h
      obtain ⟨rfl, h2⟩ := h
      simp only [idxFrom]
      rw [List.filter_cons_of_neg (by simp [setByte_same])]
      rw [← h2]
      apply List.filter_congr
      intro x hx
      rw [mem_idxFrom] at hx
      rw [setByte_other _ _ _ _ (by omega)]
    · simp [hi] at h
      have ha := filter_head_least m k (i + 1) a rest h
      simp only [idxFrom]
      rw [List.filter_cons_of_neg (by rw [setByte_other _ _ _ _ (by omega)]; simp [hi])]
      exact ih (i + 1) h

theorem allocate_page_cons (m : Mem) (p a : Int) (rest : List Int)
    (h : freeList m = a :: rest) :
    allocate_page m p = .ret a (setByte m a 1) ∧ freeList (setByte m a 1) = rest := by
  unfold freeList at h
  refine ⟨?_, filter_setByte m 64 0 a rest h⟩
  unfold allocate_page
  apply scan_free_cons _ _ _ _ _ _ _ rest h
  rw [count_free_eq, h]
  simp

theorem allocate_page_nil_ne (m : Mem) (p : Int) (hp : p ≠ 1) (h : freeList m = []) :
    allocate_page m p = .exited 1 m := by
  unfold freeList at h
  unfold allocate_page
  rw [count_free_eq, h]
  exact scan_free_zero_ne m p hp 63 0

theorem allocate_page_nil_one (m : Mem) (h : freeList m = []) :
    allocate_page m 1 = .ret 0xff m := by
  unfold freeList at h
  unfold allocate_page
  rw [count_free_eq, h]
  exact scan_free_zero_one m 64 0


theorem freeList_eq_nil (m : Mem) :
    freeList m = [] ↔ ∀ i, 0 ≤ i → i < 64 → m i ≠ 0 := by
  rw [List.eq_nil_iff_forall_not_mem]
  constructor
  · intro h i h1 h2 h3
    exact h i ((mem_freeList m i).2 ⟨h1, h2, h3⟩)
  · intro h i hi
    obtain ⟨h1, h2, h3⟩ := (mem_freeList m i).1 hi
    exact h i h1 h2 h3

/-- C8: `new_process(p, n)` with `n ≥ 64` returns normally and leaves the whole memory
(bitmap, page-table-pointer slots and all other bytes) as it was. -/
theorem new_process_too_many (m : Mem) (p n : Int) (h : 64 ≤ n) :
    new_process m p n = .ret () m := by
  simp [new_process, h]

/-- Witness of C8: `new_process(2, 64)` on the initialized memory. -/
theorem new_process_too_many_witness :
    (64 : Int) ≤ 64 ∧ new_process boot 2 64 = .ret () boot :=
  ⟨by decide, new_process_too_many boot 2 64 (by decide)⟩

/-- C9: first fit. When some bitmap byte `mem[0..63]` is 0, `allocate_page` returns the least
index `i` in `0..63` with `mem[i] = 0`, whatever the requesting process, and the memory it
leaves has `mem[i] = 1` and every other byte unchanged. -/
theorem allocate_page_first_fit (m : Mem) (proc_num : Int)
    (h : ∃ i, 0 ≤ i ∧ i < 64 ∧ m i = 0) :
    ∃ i m1, allocate_page m proc_num = .ret i m1 ∧
      0 ≤ i ∧ i < 64 ∧ m i = 0 ∧ (∀ j, 0 ≤ j → j < i → m j ≠ 0) ∧
      m1 i = 1 ∧ ∀ a, a ≠ i → m1 a = m a := by
  obtain ⟨i0, h1, h2, h3⟩ := h
  have hne : freeList m ≠ [] := by
    intro hnil
    exact (freeList_eq_nil m).1 hnil i0 h1 h2 h3
  obtain ⟨a, rest, hl⟩ := List.exists_cons_of_ne_nil hne
  obtain ⟨ha1, ha2, ha3, ha4⟩ := filter_head_least m 64 0 a rest hl
  refine ⟨a, setByte m a 1, (allocate_page_cons m proc_num a rest hl).1, ha1, by omega, ha3,
    ha4, setByte_same m a 1, ?_⟩
  intro x hx
  exact setByte_other m a x 1 hx

/-- Witness of C9: `allocate_page(2)` on the initialized memory, where page 1 is free. -/
theorem allocate_page_first_fit_witness :
    (∃ i : Int, 0 ≤ i ∧ i < 64 ∧ boot i = 0) ∧
    ∃ i m1, allocate_page boot 2 = .ret i m1 ∧
      0 ≤ i ∧ i < 64 ∧ boot i = 0 ∧ (∀ j, 0 ≤ j → j < i → boot j ≠ 0) ∧
      m1 i = 1 ∧ ∀ a, a ≠ i → m1 a = boot a :=
  ⟨⟨1, by decide⟩, allocate_page_first_fit boot 2 ⟨1, by decide⟩⟩

/-- C10: out of memory. When every bitmap byte `mem[0..63]` is nonzero, `allocate_page(1)`
returns `0xff` and leaves memory unchanged, and `allocate_page(p)` with `p ≠ 1` terminates
the simulator with exit status 1; and `allocate_page` terminates the simulator only when no
bitmap byte is 0 and `p ≠ 1`. -/
theorem allocate_page_oom (m : Mem) (p : Int) :
    ((∀ i, 0 ≤ i → i < 64 → m i ≠ 0) →
      (p = 1 → allocate_page m p = .ret 0xff m) ∧
      (p ≠ 1 → allocate_page m p = .exited 1 m)) ∧
    (∀ s m1, allocate_page m p = .exited s m1 →
      (∀ i, 0 ≤ i → i < 64 → m i ≠ 0) ∧ p ≠ 1) := by
  constructor
  · intro hfull
    have hnil := (freeList_eq_nil m).2 hfull
    exact ⟨fun hp => by subst hp; exact allocate_page_nil_one m hnil,
      fun hp => allocate_page_nil_ne m p hp hnil⟩
  · intro s m1 hex
    cases hl : freeList m with
    | nil =>
      refine ⟨(freeList_eq_nil m).1 hl, ?_⟩
      intro hp
      subst hp
      rw [allocate_page_nil_one m hl] at hex
      cases hex
    | cons a rest =>
      rw [(allocate_page_cons m p a rest hl).1] at hex
      cases hex

/-- Witness of C10 on a memory with no free page. -/
theorem allocate_page_oom_witness :
    (∀ i : Int, 0 ≤ i → i < 64 → fullMem i ≠ 0) ∧
    allocate_page fullMem 1 = .ret 0xff fullMem ∧
    allocate_page fullMem 2 = .exited 1 fullMem :=
  ⟨fun _ _ _ => (by decide : (1 : Byte) ≠ 0),
   ((allocate_page_oom fullMem 1).1 (fun _ _ _ => (by decide : (1 : Byte) ≠ 0))).1 rfl,
   ((allocate_page_oom fullMem 2).1 (fun _ _ _ => (by decide : (1 : Byte) ≠ 0))).2 (by decide)⟩

/-! ## Process creation -/

theorem store_in (m : Mem) (a v : Int) (h1 : 0 ≤ a) (h2 : a < 16384) :
    store m a v = some (setByte m a (toByte v)) := by
  simp [store, MEM_SIZE, h1, h2]

theorem load_in (m : Mem) (a : Int) (h1 : 0 ≤ a) (h2 : a < 16384) :
    load m a = some (m a) := by
  simp [load, MEM_SIZE, h1, h2]

theorem toByte_val (v : Int) (h1 : 0 ≤ v) (h2 : v < 256) : ((toByte v).val : Int) = v := by
  simp only [toByte]
  omega

theorem freeList_congr (m m1 : Mem) (h : ∀ a, 0 ≤ a → a < 64 → m1 a = m a) :
    freeList m1 = freeList m := by
  unfold freeList
  apply List.filter_congr
  intro x hx
  rw [mem_idxFrom] at hx
  rw [h x hx.1 (by omega)]

/-- The loop of `new_process` on a page table `pt` in `1..63`, when the bitmap has at least
`k` free pages: it returns, takes the `k` lowest free pages in order, and writes them to the
entries `i .. i+k-1` of the page table. -/
theorem new_process_loop_spec (p pt : Int) (hpt1 : 1 ≤ pt) (hpt2 : pt < 64) (k : Nat) :
    ∀ (i : Int) (m : Mem) (L : List Int), freeList m = L → k ≤ L.length → 0 ≤ i →
      i + k ≤ 64 →
      ∃ m1, new_process_loop p pt k i m = .ret () m1 ∧ freeList m1 = L.drop k ∧
        (∀ (j : Nat) (q : Int), j < k → L[j]? = some q → m1 (pt * 256 + i + j) = toByte q) ∧
        (∀ a, a ∈ L.take k → m1 a = 1) ∧
        (∀ a, a ∉ L.take k → ¬ (pt * 256 + i ≤ a ∧ a < pt * 256 + i + k) → m1 a = m a) := by
  induction k with
  | zero =>
    intro i m L hL _ _ _
    refine ⟨m, rfl, by simpa using hL, ?_, ?_, ?_⟩
    · intro j q hj; omega
    · intro a ha; simp at ha
    · intro a _ _; rfl
  | succ k ih =>
    intro i m L hL hk hi hik
    cases L with
    | nil => simp at hk
    | cons a rest =>
      obtain ⟨halloc, hfree⟩ := allocate_page_cons m p a rest hL
      have ha := (mem_freeList m a).1 (by rw [hL]; simp)
      have haddr : get_address pt i = pt * 256 + i :=
        get_address_eq pt i (by omega) hi (by omega)
      have hst := store_in (setByte m a 1) (pt * 256 + i) a (by omega) (by omega)
      have hfree2 : freeList (setByte (setByte m a 1) (pt * 256 + i) (toByte a)) = rest := by
        rw [← hfree]
        apply freeList_congr
        intro x hx1 hx2
        exact setByte_other _ _ _ _ (by omega)
      obtain ⟨m1, hrun, hfl, hent, htk, hfr⟩ :=
        ih (i + 1) _ rest hfree2 (by simpa using hk) (by omega) (by push_cast at hik; omega)
      refine ⟨m1, ?_, by simpa using hfl, ?_, ?_, ?_⟩
      · simp only [new_process_loop, halloc, haddr, hst]
        exact hrun
      · intro j q hj hq
        cases j with
        | zero =>
          simp at hq
          subst hq
          have hnot : (pt * 256 + i) ∉ rest.take k := by
            intro hmem
            have := List.mem_of_mem_take hmem
            have h2 := (mem_freeList _ _).1 (by rw [hfree2]; exact this)
            omega
          rw [Nat.cast_zero, add_zero, hfr _ hnot (by omega), setByte_same]
        | succ j =>
          simp at hq
          have := hent j q (by omega) hq
          rw [← this]
          congr 1
          push_cast
          ring
      · intro x hx
        rw [List.take_succ_cons, List.mem_cons] at hx
        by_cases hxr : x ∈ rest.take k
        · exact htk x hxr
        · rcases hx with rfl | hx
          · rw [hfr _ hxr (by omega), setByte_other _ _ _ _ (by omega), setByte_same]
          · exact absurd hx hxr
      · intro x hx hrange
        rw [List.take_succ_cons, List.mem_cons, not_or] at hx
        rw [hfr x hx.2 (by push_cast at hrange; omega),
          setByte_other _ _ _ _ (by push_cast at hrange; omega), setByte_other _ _ _ _ hx.1]

/-- `new_process(p, n)` for `0 ≤ p < 192`, `0 ≤ n < 64`, page 0 allocated and `n + 1` free
pages: it returns; the lowest free page `pt` becomes the page table, the next `n` free pages
go to its entries `0 .. n-1`, those `n + 1` bitmap bytes become 1, and nothing else changes
but the page-table-pointer slot of `p`. -/
theorem new_process_spec (m : Mem) (p n : Int) (hp0 : 0 ≤ p) (hp1 : p < 192) (hn0 : 0 ≤ n)
    (hn1 : n < 64) (h0 : m 0 ≠ 0) (hfree : n + 1 ≤ (freeList m).length) :
    ∃ m1 pt rest, freeList m = pt :: rest ∧ 1 ≤ pt ∧ pt < 64 ∧
      new_process m p n = .ret () m1 ∧ freeList m1 = rest.drop n.toNat ∧
      m1 (64 + p) = toByte pt ∧
      (∀ (j : Nat) (q : Int), j < n.toNat → rest[j]? = some q →
        m1 (pt * 256 + j) = toByte q) ∧
      (∀ a, a ∈ (pt :: rest).take (n.toNat + 1) → m1 a = 1) ∧
      (∀ a, a ∉ (pt :: rest).take (n.toNat + 1) → a ≠ 64 + p →
        ¬ (pt * 256 ≤ a ∧ a < pt * 256 + n) → m1 a = m a) := by
  cases hL : freeList m with
  | nil => rw [hL] at hfree; simp at hfree; omega
  | cons pt rest =>
    obtain ⟨halloc, hfl⟩ := allocate_page_cons m p pt rest hL
    obtain ⟨hpt0, hpt2, hpt3⟩ := (mem_freeList m pt).1 (by rw [hL]; simp)
    have hpt1 : 1 ≤ pt := by
      by_contra hlt
      have : pt = 0 := by omega
      subst this
      exact h0 hpt3
    have hst := store_in (setByte m pt 1) (64 + p) pt (by omega) (by omega)
    have hfl2 : freeList (setByte (setByte m pt 1) (64 + p) (toByte pt)) = rest := by
      rw [← hfl]
      apply freeList_congr
      intro x hx1 hx2
      exact setByte_other _ _ _ _ (by omega)
    have hlen : n.toNat ≤ rest.length := by
      rw [hL] at hfree
      simp at hfree
      omega
    obtain ⟨m1, hrun, hfl3, hent, htk, hfr⟩ :=
      new_process_loop_spec p pt hpt1 hpt2 n.toNat 0 _ rest hfl2 hlen (le_refl _) (by omega)
    refine ⟨m1, pt, rest, rfl, hpt1, hpt2, ?_, hfl3, ?_, ?_, ?_, ?_⟩
    · simp only [new_process, ge_iff_le, if_neg (not_le.2 hn1), halloc, hst]
      exact hrun
    · have hnot : (64 + p) ∉ rest.take n.toNat := by
        intro hmem
        have h2 := (mem_freeList _ _).1 (by rw [hfl2]; exact List.mem_of_mem_take hmem)
        omega
      rw [hfr _ hnot (by omega), setByte_same]
    · intro j q hj hq
      have := hent j q hj hq
      rwa [add_zero] at this
    · intro x hx
      rw [List.take_succ_cons, List.mem_cons] at hx
      by_cases hxr : x ∈ rest.take n.toNat
      · exact htk x hxr
      · rcases hx with rfl | hx
        · rw [hfr _ hxr (by omega), setByte_other _ _ _ _ (by omega), setByte_same]
        · exact absurd hx hxr
    · intro x hx hxp hrange
      rw [List.take_succ_cons, List.mem_cons, not_or] at hx
      rw [hfr x hx.2 (by rw [add_zero]; omega), setByte_other _ _ _ _ hxp,
        setByte_other _ _ _ _ hx.1]

theorem get_page_table_eq (m : Mem) (p : Int) (hp0 : 0 ≤ p) (hp1 : p < 192) :
    get_page_table m p = some (m (64 + p)) := by
  unfold get_page_table PTP_OFFSET
  rw [get_address_zero _ (by omega), load_in _ _ (by omega) (by omega)]

/-- The number of bitmap bytes that are 0 in `m` and nonzero in `m1`, when `m1` marks the
first `k` free pages of `m` and leaves the other free pages free. -/
theorem turned_count (m m1 : Mem) (k : Nat) (hk : k ≤ (freeList m).length)
    (h1 : ∀ a, a ∈ (freeList m).take k → m1 a = 1)
    (h2 : freeList m1 = (freeList m).drop k) :
    ((idxFrom 0 64).filter (fun i => m i = 0 ∧ m1 i ≠ 0)).length = k := by
  have hsplit : (idxFrom 0 64).filter (fun i => decide (m i = 0 ∧ m1 i ≠ 0)) =
      (freeList m).filter (fun i => decide (m1 i ≠ 0)) := by
    unfold freeList
    rw [List.filter_filter]
    apply List.filter_congr
    intro x _
    by_cases hx : m x = 0 <;> by_cases hy : m1 x = 0 <;> simp [hx, hy]
  rw [hsplit]
  conv_lhs => rw [← List.take_append_drop k (freeList m)]
  rw [List.filter_append]
  have ha : ((freeList m).take k).filter (fun i => decide (m1 i ≠ 0)) = (freeList m).take k := by
    rw [List.filter_eq_self]
    intro a ha
    simp [h1 a ha]
  have hb : ((freeList m).drop k).filter (fun i => decide (m1 i ≠ 0)) = [] := by
    rw [List.filter_eq_nil_iff]
    intro a ha
    rw [← h2] at ha
    simp [((mem_freeList m1 a).1 ha).2.2]
  rw [ha, hb, List.append_nil, List.length_take]
  omega

/-- The page-table entry `j` after `new_process`: the free page number `q` written there
reads back as `q`. -/
theorem entry_val (m : Mem) (m1 : Mem) (pt q : Int) (rest : List Int) (j : Nat)
    (hL : freeList m = pt :: rest) (hq : rest[j]? = some q)
    (he : m1 (pt * 256 + j) = toByte q) (hj : j < 64) :
    get_address pt j = pt * 256 + j ∧ ((m1 (get_address pt j)).val : Int) = q ∧
      0 ≤ q ∧ q < 64 ∧ m q = 0 := by
  have hpt := (mem_freeList m pt).1 (by rw [hL]; simp)
  have hqm : q ∈ freeList m := by
    rw [hL]
    exact List.mem_cons_of_mem _ (List.mem_iff_getElem?.2 ⟨j, hq⟩)
  obtain ⟨hq0, hq1, hq2⟩ := (mem_freeList m q).1 hqm
  have haddr := get_address_eq pt j hpt.1 (by omega) (by omega)
  refine ⟨haddr, ?_, hq0, hq1, hq2⟩
  rw [haddr, he]
  exact toByte_val q hq0 (by omega)

/-- C6: `new_process(p, n)` with `0 ≤ p < 192`, `0 ≤ n < 64`, page 0 marked allocated and at
least `n + 1` free bitmap entries returns; exactly `n + 1` bitmap entries go from free to
allocated, namely the page-table page and the `n` pages written to the page-table entries
`0 .. n-1`; no bitmap entry that was allocated changes; and `get_page_table(p)` afterwards
is the page that the first `allocate_page` returned. -/
theorem new_process_allocates (m : Mem) (p n : Int) (hp0 : 0 ≤ p) (hp1 : p < 192)
    (hn0 : 0 ≤ n) (hn1 : n < 64) (h0 : m 0 ≠ 0) (hfree : n + 1 ≤ (freeList m).length) :
    ∃ m1 pt ma, allocate_page m p = .ret pt ma ∧ new_process m p n = .ret () m1 ∧
      (((idxFrom 0 64).filter (fun i => m i = 0 ∧ m1 i ≠ 0)).length : Int) = n + 1 ∧
      (∀ a, 0 ≤ a → a < 64 → ((m a = 0 ∧ m1 a ≠ 0) ↔
        (a = pt ∨ ∃ i : Nat, (i : Int) < n ∧ ((m1 (get_address pt i)).val : Int) = a))) ∧
      (∀ a, 0 ≤ a → a < 64 → m a ≠ 0 → m1 a = m a) ∧
      ∃ b, get_page_table m1 p = some b ∧ (b.val : Int) = pt := by
  obtain ⟨m1, pt, rest, hL, hpt1, hpt2, hrun, hfl, hptr, hent, htk, hfr⟩ :=
    new_process_spec m p n hp0 hp1 hn0 hn1 h0 hfree
  have hlen : n.toNat + 1 ≤ (freeList m).length := by omega
  have hlen2 : n.toNat ≤ rest.length := by rw [hL] at hlen; simpa using hlen
  refine ⟨m1, pt, setByte m pt 1, (allocate_page_cons m p pt rest hL).1, hrun, ?_, ?_, ?_, ?_⟩
  · rw [turned_count m m1 (n.toNat + 1) hlen (by rw [hL]; exact htk)
      (by rw [hL]; simpa using hfl)]
    push_cast
    omega
  · intro a ha0 ha1
    constructor
    · rintro ⟨hz, hnz⟩
      have hmem : a ∈ (pt :: rest).take (n.toNat + 1) := by
        by_contra hnot
        exact hnz (by rw [hfr a hnot (by omega) (by omega)]; exact hz)
      rw [List.take_succ_cons, List.mem_cons] at hmem
      rcases hmem with rfl | hmem
      · exact Or.inl rfl
      · obtain ⟨i, hi, hia⟩ := List.mem_take_iff_getElem.1 hmem
        have hi2 : i < n.toNat := by omega
        have hq : rest[i]? = some a := by
          rw [List.getElem?_eq_getElem (by omega), hia]
        have := entry_val m m1 pt a rest i hL hq (hent i a hi2 hq) (by omega)
        exact Or.inr ⟨i, by omega, this.2.1⟩
    · rintro (rfl | ⟨i, hi, hia⟩)
      · have := (mem_freeList m a).1 (by rw [hL]; simp)
        refine ⟨this.2.2, ?_⟩
        rw [htk a (by simp)]
        decide
      · have hi2 : i < n.toNat := by omega
        have hq : rest[i]? = some rest[i] := List.getElem?_eq_getElem (by omega)
        have hv := entry_val m m1 pt _ rest i hL hq (hent i _ hi2 hq) (by omega)
        rw [hv.2.1] at hia
        rw [← hia]
        refine ⟨hv.2.2.2.2, ?_⟩
        have hmem : rest[i] ∈ (pt :: rest).take (n.toNat + 1) := by
          rw [List.take_succ_cons]
          exact List.mem_cons_of_mem _ (List.mem_take_iff_getElem.2 ⟨i, by omega, rfl⟩)
        rw [htk _ hmem]
        decide
  · intro a ha0 ha1 hnz
    apply hfr a _ (by omega) (by omega)
    intro hmem
    have := (mem_freeList m a).1 (by rw [hL]; exact List.mem_of_mem_take hmem)
    exact hnz this.2.2
  · refine ⟨toByte pt, ?_, toByte_val pt (by omega) (by omega)⟩
    rw [get_page_table_eq m1 p hp0 hp1, hptr]

/-- C7: `new_process(p, n)` with `0 ≤ p < 192`, `0 ≤ n < 64`, page 0 marked allocated and at
least `n + 1` free pages takes the lowest-numbered free page as the page table of `p` and
stores in the page-table entries `0, 1, ..., n-1` the next `n` lowest-numbered free pages,
in increasing order: entry `i` is the free page of rank `i + 1`. -/
theorem new_process_allocation_order (m : Mem) (p n : Int) (hp0 : 0 ≤ p) (hp1 : p < 192)
    (hn0 : 0 ≤ n) (hn1 : n < 64) (h0 : m 0 ≠ 0) (hfree : n + 1 ≤ (freeList m).length) :
    ∃ m1 pt, new_process m p n = .ret () m1 ∧ get_page_table m1 p = some pt ∧
      (freeList m)[0]? = some (pt.val : Int) ∧
      ∀ i : Nat, (i : Int) < n →
        ∃ e, load m1 (get_address pt.val i) = some e ∧
          (freeList m)[i + 1]? = some (e.val : Int) := by
  obtain ⟨m1, pt, rest, hL, hpt1, hpt2, hrun, hfl, hptr, hent, htk, hfr⟩ :=
    new_process_spec m p n hp0 hp1 hn0 hn1 h0 hfree
  have hlen : n.toNat + 1 ≤ (freeList m).length := by omega
  have hlen2 : n.toNat ≤ rest.length := by rw [hL] at hlen; simpa using hlen
  have hv : ((toByte pt).val : Int) = pt := toByte_val pt (by omega) (by omega)
  refine ⟨m1, toByte pt, hrun, ?_, ?_, ?_⟩
  · rw [get_page_table_eq m1 p hp0 hp1, hptr]
  · rw [hL, hv]; simp
  · intro i hi
    have hi2 : i < n.toNat := by omega
    have hq : rest[i]? = some rest[i] := List.getElem?_eq_getElem (by omega)
    have he := entry_val m m1 pt _ rest i hL hq (hent i _ hi2 hq) (by omega)
    rw [hv]
    refine ⟨m1 (get_address pt i), ?_, ?_⟩
    · rw [he.1]
      exact load_in _ _ (by omega) (by omega)
    · rw [hL, he.2.1]
      simp

/-- The list of free pages is strictly increasing. -/
theorem idxFrom_sorted (k : Nat) (i : Int) : (idxFrom i k).Pairwise (· < ·) := by
  induction k generalizing i with
  | zero => simp [idxFrom]
  | succ k ih =>
    simp only [idxFrom, List.pairwise_cons]
    refine ⟨?_, ih (i + 1)⟩
    intro a ha
    rw [mem_idxFrom] at ha
    omega

theorem freeList_sorted (m : Mem) : (freeList m).Pairwise (· < ·) :=
  (idxFrom_sorted 64 0).filter _

set_option maxRecDepth 100000 in
/-- Witness of C6 on the initialized memory: `new_process(2, 3)`. -/
theorem new_process_allocates_witness :
    boot 0 ≠ 0 ∧ (3 : Int) + 1 ≤ (freeList boot).length ∧
    ∃ m1 pt ma, allocate_page boot 2 = .ret pt ma ∧ new_process boot 2 3 = .ret () m1 ∧
      (((idxFrom 0 64).filter (fun i => boot i = 0 ∧ m1 i ≠ 0)).length : Int) = 3 + 1 ∧
      (∀ a, 0 ≤ a → a < 64 → ((boot a = 0 ∧ m1 a ≠ 0) ↔
        (a = pt ∨ ∃ i : Nat, (i : Int) < 3 ∧ ((m1 (get_address pt i)).val : Int) = a))) ∧
      (∀ a, 0 ≤ a → a < 64 → boot a ≠ 0 → m1 a = boot a) ∧
      ∃ b, get_page_table m1 2 = some b ∧ (b.val : Int) = pt :=
  ⟨by decide, by decide,
   new_process_allocates boot 2 3 (by decide) (by decide) (by decide) (by decide) (by decide)
     (by decide)⟩

set_option maxRecDepth 100000 in
/-- Witness of C7 on the initialized memory: `new_process(2, 3)` gives page table 1 and the
entries 2, 3, 4. -/
theorem new_process_allocation_order_witness :
    boot 0 ≠ 0 ∧ (3 : Int) + 1 ≤ (freeList boot).length ∧
    (freeList boot)[0]? = some 1 ∧ (freeList boot)[1]? = some 2 ∧
    (freeList boot)[2]? = some 3 ∧ (freeList boot)[3]? = some 4 ∧
    ∃ m1 pt, new_process boot 2 3 = .ret () m1 ∧ get_page_table m1 2 = some pt ∧
      (freeList boot)[0]? = some (pt.val : Int) ∧
      ∀ i : Nat, (i : Int) < 3 →
        ∃ e, load m1 (get_address pt.val i) = some e ∧
          (freeList boot)[i + 1]? = some (e.val : Int) :=
  ⟨by decide, by decide, by decide, by decide, by decide, by decide,
   new_process_allocation_order boot 2 3 (by decide) (by decide) (by decide) (by decide)
     (by decide) (by decide)⟩

/-! ## Process teardown -/

theorem toByte_zero : toByte 0 = 0 := rfl

/-- The loop of `kill_process` on a page table `pt` in `1..63`: every iteration deallocates
the page its entry names, so the loop clears the bytes of page 0 that the entries
`i .. i+k-1` name and nothing else. -/
theorem kill_loop_spec (pt : Int) (hpt1 : 1 ≤ pt) (hpt2 : pt < 64) (k : Nat) :
    ∀ (i : Int) (m : Mem), 1 ≤ i → i + k ≤ 64 →
      ∃ m1, kill_loop pt k i m = some m1 ∧
        (∀ a, 256 ≤ a → m1 a = m a) ∧
        (∀ j, i ≤ j → j < i + k → m1 ((m (pt * 256 + j)).val : Int) = 0) ∧
        (∀ a, (∀ j, i ≤ j → j < i + k → a ≠ ((m (pt * 256 + j)).val : Int)) → m1 a = m a) ∧
        (∀ a, m a = 0 → m1 a = 0) := by
  induction k with
  | zero =>
    intro i m _ _
    refine ⟨m, rfl, fun _ _ => rfl, ?_, fun _ _ => rfl, fun _ h => h⟩
    intro j h1 h2
    simp at h2
    omega
  | succ k ih =>
    intro i m hi hik
    push_cast at hik
    have haddr : get_address pt i = pt * 256 + i :=
      get_address_eq pt i (by omega) (by omega) (by omega)
    have hb : ((m (pt * 256 + i)).val : Int) < 256 := by omega
    have hc : pt * 256 + i ≠ 0 ∧ pt * 256 + i ≠ ((m 0).val : Int) := by omega
    have hload := load_in m (pt * 256 + i) (by omega) (by omega)
    have hst := store_in m ((m (pt * 256 + i)).val : Int) 0 (by omega) (by omega)
    rw [toByte_zero] at hst
    obtain ⟨m1, hrun, hhigh, hent, hfr, hz⟩ :=
      ih (i + 1) (setByte m ((m (pt * 256 + i)).val : Int) 0) (by omega) (by omega)
    have hsame : ∀ a, 256 ≤ a →
        setByte m ((m (pt * 256 + i)).val : Int) 0 a = m a := by
      intro a ha
      exact setByte_other _ _ _ _ (by omega)
    refine ⟨m1, ?_, ?_, ?_, ?_, ?_⟩
    · have hstep : kill_step pt i m = some (setByte m ((m (pt * 256 + i)).val : Int) 0) := by
        unfold kill_step
        dsimp only
        rw [haddr, if_pos hc, hload]
        exact hst
      rw [kill_loop, hstep]
      exact hrun
    · intro a ha
      rw [hhigh a ha, hsame a ha]
    · intro j hj1 hj2
      by_cases hji : j = i
      · subst hji
        exact hz _ (setByte_same _ _ _)
      · have := hent j (by omega) (by push_cast at hj2; omega)
        rwa [hsame _ (by omega)] at this
    · intro a ha
      rw [hfr a, setByte_other _ _ _ _ (ha i (le_refl _) (by push_cast; omega))]
      intro j hj1 hj2
      rw [hsame _ (by omega)]
      exact ha j (by omega) (by push_cast; omega)
    · intro a ha
      apply hz
      by_cases hx : a = ((m (pt * 256 + i)).val : Int)
      · rw [hx]; exact setByte_same _ _ _
      · rw [setByte_other _ _ _ _ hx]; exact ha

/-- `kill_process(p)` for `0 ≤ p < 192` whose page-table-pointer slot holds a page `pt` in
`1..63`: it returns, and the memory it leaves has 0 at `pt` and at every page named by the
entries `1..63` of page `pt`, and is otherwise unchanged. -/
theorem kill_process_spec (m : Mem) (p : Int) (hp0 : 0 ≤ p) (hp1 : p < 192)
    (hpt1 : 1 ≤ ((m (64 + p)).val : Int)) (hpt2 : ((m (64 + p)).val : Int) < 64) :
    ∃ m2, kill_process m p = some m2 ∧
      m2 ((m (64 + p)).val : Int) = 0 ∧
      (∀ j, 1 ≤ j → j < 64 →
        m2 ((m (((m (64 + p)).val : Int) * 256 + j)).val : Int) = 0) ∧
      (∀ a, a ≠ ((m (64 + p)).val : Int) →
        (∀ j, 1 ≤ j → j < 64 → a ≠ ((m (((m (64 + p)).val : Int) * 256 + j)).val : Int)) →
        m2 a = m a) ∧
      (∀ a, 256 ≤ a → m2 a = m a) := by
  obtain ⟨m1, hrun, hhigh, hent, hfr, hz⟩ :=
    kill_loop_spec ((m (64 + p)).val : Int) hpt1 hpt2 63 1 m (le_refl _) (by norm_num)
  have hst := store_in m1 ((m (64 + p)).val : Int) 0 (by omega) (by omega)
  rw [toByte_zero] at hst
  refine ⟨setByte m1 ((m (64 + p)).val : Int) 0, ?_, setByte_same _ _ _, ?_, ?_, ?_⟩
  · have hl : load m (p + 64) = some (m (64 + p)) := by
      rw [add_comm p 64]
      exact load_in m (64 + p) (by omega) (by omega)
    unfold kill_process
    rw [hl, get_page_table_eq m p hp0 hp1]
    dsimp only
    rw [hrun]
    exact hst
  · intro j hj1 hj2
    by_cases hx : ((m (((m (64 + p)).val : Int) * 256 + j)).val : Int) = ((m (64 + p)).val : Int)
    · rw [hx]; exact setByte_same _ _ _
    · rw [setByte_other _ _ _ _ hx]
      exact hent j hj1 (by push_cast; omega)
  · intro a ha1 ha2
    rw [setByte_other _ _ _ _ ha1]
    exact hfr a (fun j hj1 hj2 => ha2 j hj1 (by push_cast at hj2; omega))
  · intro a ha
    rw [setByte_other _ _ _ _ (by omega)]
    exact hhigh a ha


/-- C3 (amended): for `0 ≤ p < 192` and `0 ≤ n < 64`, in a state where page 0 is marked
allocated and at least `n + 1` pages are free, `new_process(p, n)` followed by
`kill_process(p)` returns and leaves the bitmap with the page-table page of `p` free and
every page named by the entries `1 .. n-1` of its page table free; and when `n ≥ 1` and no
entry `n .. 63` of the page table names the page of entry 0, that page is still marked
allocated. -/
theorem kill_process_reclaims (m : Mem) (p n : Int) (hp0 : 0 ≤ p) (hp1 : p < 192)
    (hn0 : 0 ≤ n) (hn1 : n < 64) (h0 : m 0 ≠ 0) (hfree : n + 1 ≤ (freeList m).length) :
    ∃ m1 pt m2, new_process m p n = .ret () m1 ∧ get_page_table m1 p = some pt ∧
      kill_process m1 p = some m2 ∧
      m2 (pt.val : Int) = 0 ∧
      (∀ i, 1 ≤ i → i < n → m2 ((m1 (get_address pt.val i)).val : Int) = 0) ∧
      (1 ≤ n →
        (∀ i, n ≤ i → i < 64 → m1 (get_address pt.val i) ≠ m1 (get_address pt.val 0)) →
        m2 ((m1 (get_address pt.val 0)).val : Int) ≠ 0) := by
  obtain ⟨m1, pt, rest, hL, hpt1, hpt2, hrun, hfl, hptr, hent, htk, hfr⟩ :=
    new_process_spec m p n hp0 hp1 hn0 hn1 h0 hfree
  have hv : ((toByte pt).val : Int) = pt := toByte_val pt (by omega) (by omega)
  have hslot : ((m1 (64 + p)).val : Int) = pt := by rw [hptr]; exact hv
  obtain ⟨m2, hkill, hfpt, hfent, hframe, -⟩ :=
    kill_process_spec m1 p hp0 hp1 (by omega) (by omega)
  rw [hslot] at hfpt hfent hframe
  have hlen : n.toNat ≤ rest.length := by
    rw [hL] at hfree
    simp at hfree
    omega
  have haddr : ∀ i, 0 ≤ i → i < 64 → get_address pt i = pt * 256 + i :=
    fun i hi0 hi1 => get_address_eq pt i (by omega) hi0 (by omega)
  have hsorted := freeList_sorted m
  rw [hL, List.pairwise_cons] at hsorted
  refine ⟨m1, toByte pt, m2, hrun, ?_, hkill, ?_, ?_, ?_⟩
  · rw [get_page_table_eq m1 p hp0 hp1, hptr]
  · rw [hv]; exact hfpt
  · intro i hi1 hi2
    rw [hv, haddr i (by omega) (by omega)]
    exact hfent i hi1 (by omega)
  · intro hn hstale
    rw [hv] at hstale ⊢
    have h0lt : 0 < rest.length := by omega
    have hq : rest[0]? = some rest[0] := List.getElem?_eq_getElem h0lt
    have he := entry_val m m1 pt _ rest 0 hL hq (hent 0 _ (by omega) hq) (by omega)
    simp only [Nat.cast_zero] at he
    rw [he.2.1]
    have hmem : rest[0] ∈ (pt :: rest).take (n.toNat + 1) := by
      rw [List.take_succ_cons]
      exact List.mem_cons_of_mem _ (List.mem_take_iff_getElem.2 ⟨0, by omega, rfl⟩)
    have hkeep : m2 rest[0] = m1 rest[0] := by
      apply hframe
      · have := hsorted.1 rest[0] (List.getElem_mem _)
        omega
      · intro j hj1 hj2
        by_cases hjn : j < n
        · have hj : j.toNat < rest.length := by omega
          have hqj : rest[j.toNat]? = some rest[j.toNat] := List.getElem?_eq_getElem hj
          have hej := entry_val m m1 pt _ rest j.toNat hL hqj
            (hent j.toNat _ (by omega) hqj) (by omega)
          have hcast : ((j.toNat : Nat) : Int) = j := by omega
          rw [hcast] at hej
          rw [← haddr j (by omega) hj2, hej.2.1]
          have := (List.pairwise_iff_getElem.1 hsorted.2) 0 j.toNat h0lt hj (by omega)
          omega
        · intro heq
          apply hstale j (by omega) hj2
          apply Fin.ext
          have h1 : ((m1 (get_address pt j)).val : Int) = ((m1 (get_address pt 0)).val : Int) := by
            rw [he.2.1, haddr j (by omega) hj2]
            exact heq.symm
          exact_mod_cast h1
    rw [hkeep, htk _ hmem]
    decide


theorem boot_eq_zero (a : Int) (ha : a ≠ 0) : boot a = 0 := by
  have h : get_address 0 0 = 0 := get_address_zero 0 (le_refl _)
  unfold boot initialize_mem
  rw [h, setByte_other _ _ _ _ ha]
  simp [mem0]

set_option maxRecDepth 100000 in
/-- Witness of C3 on the initialized memory: `new_process(2, 3)` then `kill_process(2)`;
the entries `3 .. 63` of the page table are 0 and entry 0 is not. -/
theorem kill_process_reclaims_witness :
    boot 0 ≠ 0 ∧ (3 : Int) + 1 ≤ (freeList boot).length ∧
    ∃ m1 pt m2, new_process boot 2 3 = .ret () m1 ∧ get_page_table m1 2 = some pt ∧
      kill_process m1 2 = some m2 ∧
      m2 (pt.val : Int) = 0 ∧
      (∀ i, 1 ≤ i → i < 3 → m2 ((m1 (get_address pt.val i)).val : Int) = 0) ∧
      m2 ((m1 (get_address pt.val 0)).val : Int) ≠ 0 := by
  obtain ⟨m1, pt, m2, h1, h2, h3, h4, h5, h6⟩ :=
    kill_process_reclaims boot 2 3 (by decide) (by decide) (by decide) (by decide)
      (by decide) (by decide)
  refine ⟨by decide, by decide, m1, pt, m2, h1, h2, h3, h4, h5, h6 (by decide) ?_⟩
  have hm1 : m1 = (new_process boot 2 3).memory := by rw [h1]; rfl
  subst hm1
  have hpt : pt = 1 := Option.some.inj (h2.symm.trans (by decide))
  subst hpt
  decide

set_option maxRecDepth 100000 in
/-- C3, as stated, fails: in the memory left by `initialize_mem()` and `sb 5 261 2` page 0 is
marked allocated and 63 pages are free; `new_process(2, 3)` takes page 1 as the page table
and page 2 for entry 0; entry 5 of page 1 still holds 2, so `kill_process(2)` frees
page 2, the page named by entry 0. -/
theorem kill_process_frees_entry0 :
    store_value boot 5 261 2 = some staleMem ∧
    staleMem 0 ≠ 0 ∧ (3 : Int) + 1 ≤ (freeList staleMem).length ∧
    (run staleMem [.np 2 3]).byteAt 66 = some 1 ∧
    (run staleMem [.np 2 3]).byteAt (get_address 1 0) = some 2 ∧
    (run staleMem [.np 2 3]).byteAt 2 = some 1 ∧
    (run staleMem [.np 2 3, .kp 2]).byteAt 2 = some 0 :=
  ⟨by rfl, by decide, by decide, by decide, by decide, by decide, by decide⟩


/-! ## Where the code departs from the specification -/

set_option maxRecDepth 100000 in
/-- C1 fails on the code: after `initialize_mem()` and `new_process(2, 3)` the page table of
process 2 is page 1 and its entry 0 maps virtual page 0 to page 2, so the translation of
virtual address `(0 << 8) | 0` should be `(2 << 8) | 0 = 512`; `get_physical_address(2, 0)`
is `(((1 << 8) | 0) << 8) | 0 = 65536`, built from the address of the entry, not from the
byte stored there. -/
theorem get_physical_address_skips_entry :
    (run boot [.np 2 3]).byteAt 66 = some 1 ∧
    (run boot [.np 2 3]).byteAt (get_address 1 0) = some 2 ∧
    get_address 2 0 = 512 ∧
    get_physical_address (run boot [.np 2 3]).memory 2 (get_address 0 0) = some 65536 :=
  ⟨by decide, by decide, by decide, by decide⟩

set_option maxRecDepth 100000 in
/-- C2 fails on the code: after `initialize_mem()` and `new_process(2, 3)`,
`store_value(2, 0, 99)` computes the physical address 65536, which is not below
`MEM_SIZE = 16384`: the store and the following `load_value(2, 0)` index `mem` outside the
array and have no defined result, and no value 99 is read. -/
theorem store_value_outside_mem :
    get_physical_address (run boot [.np 2 3]).memory 2 0 = some 65536 ∧
    ¬ ((65536 : Int) < MEM_SIZE) ∧
    (store_value (run boot [.np 2 3]).memory 2 0 99).isNone = true ∧
    (run boot [.np 2 3, .sb 2 0 99]).byteAt 512 = none ∧
    load_value (run boot [.np 2 3]).memory 2 0 = none :=
  ⟨by decide, by decide, by decide, by decide, by decide⟩

set_option maxRecDepth 100000 in
/-- C4 fails on the code: after `initialize_mem()`, `new_process(2, 3)` and
`kill_process(2)` the bitmap entry of page 0 is 0, because the kill loop deallocates the
page named by every entry `1..63`, and the unused entries name page 0; the next
`allocate_page` then returns page 0, and `new_process(3, 0)` takes it as a page table. -/
theorem kill_process_frees_page_zero :
    (run boot [.np 2 3, .kp 2]).byteAt 0 = some 0 ∧
    (allocate_page (run boot [.np 2 3, .kp 2]).memory 3).value = some 0 ∧
    (run boot [.np 2 3, .kp 2, .np 3 0]).byteAt 67 = some 0 :=
  ⟨by decide, by decide, by decide⟩

set_option maxRecDepth 100000 in
/-- C5 fails on the code: after `initialize_mem()`, `new_process(1, 0)`, `kill_process(1)`,
`new_process(2, 0)` and `new_process(3, 0)` the processes 2 and 3 are live; the page table
of process 2 is page 0, whose entry 0 is the nonzero byte 1 and so names page 1; the page
table of process 3 is page 1. Page 1 is owned by both. -/
theorem page_owned_by_two_processes :
    (run boot [.np 1 0, .kp 1, .np 2 0, .np 3 0]).byteAt 66 = some 0 ∧
    (run boot [.np 1 0, .kp 1, .np 2 0, .np 3 0]).byteAt (get_address 0 0) = some 1 ∧
    (run boot [.np 1 0, .kp 1, .np 2 0, .np 3 0]).byteAt 67 = some 1 ∧
    (run boot [.np 1 0, .kp 1]).byteAt 0 = some 0 :=
  ⟨by decide, by decide, by decide, by decide⟩


/-! ## Address translation -/

theorem get_page_table_slot (m : Mem) (p : Int) (h1 : 0 ≤ 64 + p) (h2 : 64 + p < 16384) :
    get_page_table m p = some (m (64 + p)) := by
  unfold get_page_table PTP_OFFSET
  rw [get_address_zero _ h1, load_in _ _ h1 h2]

theorem get_page_table_none (m : Mem) (p : Int) (h : ¬ (0 ≤ 64 + p ∧ 64 + p < 16384)) :
    get_page_table m p = none := by
  unfold get_page_table PTP_OFFSET
  by_cases h1 : 0 ≤ 64 + p
  · rw [get_address_zero _ h1]
    simp only [load, MEM_SIZE]
    rw [if_neg h]
  · have hneg : 64 + p < 0 := by omega
    have hlt : get_address 0 (64 + p) < 0 := by
      unfold get_address PAGE_SHIFT
      have h0 := shl8_ofNat 0
      simp only [Nat.cast_zero, Nat.zero_shiftLeft] at h0
      rw [h0]
      obtain ⟨k, hk⟩ := Int.eq_negSucc_of_lt_zero hneg
      rw [hk]
      show Int.lor (Int.ofNat 0) (Int.negSucc k) < 0
      simp only [Int.lor]
      exact Int.negSucc_lt_zero _
    simp only [load]
    rw [if_neg (by omega)]

/-- The value of `get_physical_address` for a virtual address `va ≥ 0`, with `pt` the byte
in the page-table-pointer slot: `(((pt << 8) | (va >> 8)) << 8) | (va & 255)`. -/
theorem physical_address_nat (pt : Byte) (v : Nat) :
    Int.lor ((get_address (pt.val : Int) (((v : Nat) : Int) >>> (8 : Nat))) <<< (8 : Int))
      (Int.land ((v : Nat) : Int) 255) =
    (((pt.val <<< 8 ||| v >>> 8) * 256 + v % 256 : Nat) : Int) := by
  have h1 : (((v : Nat) : Int) >>> (8 : Nat)) = ((v >>> 8 : Nat) : Int) := rfl
  have h2 : Int.land ((v : Nat) : Int) 255 = ((v &&& 255 : Nat) : Int) := rfl
  have h3 : v &&& 255 = v % 256 := Nat.and_pow_two_sub_one_eq_mod v 8
  have h4 : v % 256 < 2 ^ 8 := by omega
  unfold get_address PAGE_SHIFT
  rw [h1, h2, h3, shl8_ofNat, lor_ofNat, shl8_ofNat, lor_ofNat, Nat.shiftLeft_eq _ 8,
    Nat.mul_comm _ (2 ^ 8), ← Nat.mul_add_lt_is_or h4]

theorem get_physical_address_eq (m : Mem) (p va : Int) (h1 : 0 ≤ 64 + p)
    (h2 : 64 + p < 16384) (hva : 0 ≤ va) :
    get_physical_address m p va =
      some ((((m (64 + p)).val <<< 8 ||| va.toNat >>> 8) * 256 + va.toNat % 256 : Nat) : Int) := by
  obtain ⟨v, rfl⟩ := Int.eq_ofNat_of_zero_le hva
  unfold get_physical_address
  rw [get_page_table_slot m p h1 h2]
  dsimp only
  rw [physical_address_nat]
  simp


/-- C19: for every process number `p`, memory and virtual address `va ≥ 0`,
`get_physical_address(p, va)` has a result exactly when the page-table-pointer slot
`mem[64 + p]` it reads is inside `mem`, and every result has the low 8 bits of `va`:
`get_physical_address(p, va) mod 256 = va mod 256`. -/
theorem get_physical_address_offset (m : Mem) (p va : Int) (hva : 0 ≤ va) :
    ((∃ pa, get_physical_address m p va = some pa) ↔ (0 ≤ 64 + p ∧ 64 + p < MEM_SIZE)) ∧
    ∀ pa, get_physical_address m p va = some pa → pa % 256 = va % 256 := by
  by_cases h : 0 ≤ 64 + p ∧ 64 + p < 16384
  · have heq := get_physical_address_eq m p va h.1 h.2 hva
    refine ⟨⟨fun _ => h, fun _ => ⟨_, heq⟩⟩, ?_⟩
    intro pa hpa
    rw [heq] at hpa
    have := Option.some.inj hpa
    rw [← this]
    omega
  · have hnone : get_physical_address m p va = none := by
      unfold get_physical_address
      rw [get_page_table_none m p h]
    refine ⟨⟨?_, fun h2 => absurd h2 h⟩, ?_⟩
    · rintro ⟨pa, hpa⟩
      rw [hnone] at hpa
      cases hpa
    · intro pa hpa
      rw [hnone] at hpa
      cases hpa

/-- Witness of C19: process 2 and virtual address 300 on the initialized memory. -/
theorem get_physical_address_offset_witness :
    (0 : Int) ≤ 300 ∧
    ((∃ pa, get_physical_address boot 2 300 = some pa) ↔
      ((0 : Int) ≤ 64 + 2 ∧ (64 : Int) + 2 < MEM_SIZE)) ∧
    ∀ pa, get_physical_address boot 2 300 = some pa → pa % 256 = 300 % 256 :=
  ⟨by decide, get_physical_address_offset boot 2 300 (by decide)⟩

/-- C13: after `initialize_mem()`, whatever `mem` held before, bitmap entry 0 is 1, the
bitmap entries `1 .. 63` are 0, and every other byte of the 16384 bytes of `mem` is 0. -/
theorem initialize_mem_spec (m : Mem) :
    initialize_mem m 0 = 1 ∧
    (∀ a, 1 ≤ a → a < 64 → initialize_mem m a = 0) ∧
    (∀ a, 64 ≤ a → a < MEM_SIZE → initialize_mem m a = 0) := by
  have h : get_address 0 0 = 0 := get_address_zero 0 (le_refl _)
  unfold initialize_mem
  rw [h]
  refine ⟨setByte_same _ _ _, ?_, ?_⟩
  · intro a h1 h2
    rw [setByte_other _ _ _ _ (by omega)]
    simp only [MEM_SIZE]
    rw [if_pos (by omega)]
  · intro a h1 h2
    rw [setByte_other _ _ _ _ (by omega)]
    rw [if_pos ⟨by omega, h2⟩]

/-- Witness of C13 on a memory that held 1 in every byte. -/
theorem initialize_mem_spec_witness :
    initialize_mem fullMem 0 = 1 ∧ initialize_mem fullMem 63 = 0 ∧
    initialize_mem fullMem 16383 = 0 :=
  ⟨(initialize_mem_spec fullMem).1,
   (initialize_mem_spec fullMem).2.1 63 (by decide) (by decide),
   (initialize_mem_spec fullMem).2.2 16383 (by decide) (by decide)⟩

/-- C12: when `allocate_page` returns a page number (a free page, or `0xff` for process 1
with no free page), `deallocate_page` of that number is inside `mem` and leaves the bitmap
`mem[0..63]` with the bytes it held before the allocation. -/
theorem allocate_deallocate_inverse (m : Mem) (p i : Int) (m1 : Mem)
    (h : allocate_page m p = .ret i m1) :
    ∃ m2, deallocate_page m1 i = some m2 ∧ ∀ a, 0 ≤ a → a < 64 → m2 a = m a := by
  cases hl : freeList m with
  | nil =>
    by_cases hp : p = 1
    · subst hp
      rw [allocate_page_nil_one m hl] at h
      obtain ⟨rfl, rfl⟩ := Outcome.ret.inj h
      refine ⟨setByte m 255 0, ?_, ?_⟩
      · exact store_in m 255 0 (by decide) (by decide)
      · intro a _ ha
        exact setByte_other _ _ _ _ (by omega)
    · rw [allocate_page_nil_ne m p hp hl] at h
      cases h
  | cons a rest =>
    rw [(allocate_page_cons m p a rest hl).1] at h
    obtain ⟨rfl, rfl⟩ := Outcome.ret.inj h
    obtain ⟨ha0, ha1, ha2⟩ := (mem_freeList m a).1 (by rw [hl]; simp)
    refine ⟨setByte (setByte m a 1) a 0, ?_, ?_⟩
    · exact store_in _ a 0 ha0 (by omega)
    · intro x _ _
      by_cases hx : x = a
      · subst hx
        rw [setByte_same, ha2]
      · rw [setByte_other _ _ _ _ hx, setByte_other _ _ _ _ hx]

set_option maxRecDepth 100000 in
/-- Witness of C12: `allocate_page(2)` on the initialized memory returns page 1. -/
theorem allocate_deallocate_inverse_witness :
    allocate_page boot 2 = .ret 1 (setByte boot 1 1) ∧
    ∃ m2, deallocate_page (setByte boot 1 1) 1 = some m2 ∧
      ∀ a, 0 ≤ a → a < 64 → m2 a = boot a :=
  ⟨by rfl, allocate_deallocate_inverse boot 2 1 (setByte boot 1 1) (by rfl)⟩

set_option maxRecDepth 100000 in
/-- C15 fails on the code: after `initialize_mem()` and `new_process(2, 3)` the virtual
addresses `0 .. 767` are mapped, and `get_physical_address(2, va)` is `65536 + va` for them
(65536 for 0, 66303 for 767), not below `MEM_SIZE = 16384`. -/
theorem physical_address_outside_mem :
    get_physical_address (run boot [.np 2 3]).memory 2 767 = some 66303 ∧
    ¬ ((66303 : Int) < MEM_SIZE) ∧
    get_physical_address (run boot [.np 2 3]).memory 2 256 = some 65792 ∧
    ¬ ((65792 : Int) < MEM_SIZE) :=
  ⟨by decide, by decide, by decide, by decide⟩

set_option maxRecDepth 100000 in
/-- C16 fails on the code: after `initialize_mem()` and `new_process(2, 3)` entry 5 of the
page table of process 2 (page 1) is 0, and `get_physical_address(2, (5 << 8) | 7)` is
`(((1 << 8) | 5) << 8) | 7 = 66823`, not 7. -/
theorem unmapped_page_not_aliased :
    (run boot [.np 2 3]).byteAt 66 = some 1 ∧
    (run boot [.np 2 3]).byteAt (get_address 1 5) = some 0 ∧
    get_address 5 7 = 1287 ∧
    get_physical_address (run boot [.np 2 3]).memory 2 (get_address 5 7) = some 66823 :=
  ⟨by decide, by decide, by decide, by decide⟩


/-! ## Teardown and creation: what stays as it was -/

/-- C14 (amended): for `0 ≤ p < 192` and `0 ≤ n < 64`, in a state where page 0 is marked
allocated and at least `n + 1` pages are free, after `new_process(p, n)` and
`kill_process(p)` the page that `get_page_table(p)` returned before the kill is marked free;
and when no entry `i` with `1 ≤ i`, `n ≤ i < 64` of the page table holds `64 + p`, the index
of the page-table-pointer slot of `p`, `get_page_table(p)` returns the same page after the
kill. -/
theorem kill_process_stale_pointer (m : Mem) (p n : Int) (hp0 : 0 ≤ p) (hp1 : p < 192)
    (hn0 : 0 ≤ n) (hn1 : n < 64) (h0 : m 0 ≠ 0) (hfree : n + 1 ≤ (freeList m).length) :
    ∃ m1 pt m2, new_process m p n = .ret () m1 ∧ get_page_table m1 p = some pt ∧
      kill_process m1 p = some m2 ∧
      m2 (pt.val : Int) = 0 ∧
      ((∀ i, 1 ≤ i → n ≤ i → i < 64 → ((m1 (get_address pt.val i)).val : Int) ≠ 64 + p) →
        get_page_table m2 p = some pt) := by
  obtain ⟨m1, pt, rest, hL, hpt1, hpt2, hrun, hfl, hptr, hent, htk, hfr⟩ :=
    new_process_spec m p n hp0 hp1 hn0 hn1 h0 hfree
  have hv : ((toByte pt).val : Int) = pt := toByte_val pt (by omega) (by omega)
  have hslot : ((m1 (64 + p)).val : Int) = pt := by rw [hptr]; exact hv
  obtain ⟨m2, hkill, hfpt, hfent, hframe, -⟩ :=
    kill_process_spec m1 p hp0 hp1 (by omega) (by omega)
  rw [hslot] at hfpt hfent hframe
  have hlen : n.toNat ≤ rest.length := by
    rw [hL] at hfree
    simp at hfree
    omega
  have haddr : ∀ i, 0 ≤ i → i < 64 → get_address pt i = pt * 256 + i :=
    fun i hi0 hi1 => get_address_eq pt i (by omega) hi0 (by omega)
  refine ⟨m1, toByte pt, m2, hrun, ?_, hkill, ?_, ?_⟩
  · rw [get_page_table_eq m1 p hp0 hp1, hptr]
  · rw [hv]; exact hfpt
  · intro hstale
    rw [hv] at hstale
    rw [get_page_table_eq m2 p hp0 hp1, ← hptr]
    congr 1
    apply hframe
    · omega
    · intro j hj1 hj2
      by_cases hjn : j < n
      · have hj : j.toNat < rest.length := by omega
        have hqj : rest[j.toNat]? = some rest[j.toNat] := List.getElem?_eq_getElem hj
        have hej := entry_val m m1 pt _ rest j.toNat hL hqj
          (hent j.toNat _ (by omega) hqj) (by omega)
        have hcast : ((j.toNat : Nat) : Int) = j := by omega
        rw [hcast] at hej
        rw [← haddr j (by omega) hj2, hej.2.1]
        omega
      · have := hstale j hj1 (by omega) hj2
        rw [haddr j (by omega) hj2] at this
        exact fun h => this h.symm

set_option maxRecDepth 100000 in
/-- Witness of C14 on the initialized memory: `new_process(2, 3)` then `kill_process(2)`;
the entries `3 .. 63` of the page table are 0, not 66. -/
theorem kill_process_stale_pointer_witness :
    boot 0 ≠ 0 ∧ (3 : Int) + 1 ≤ (freeList boot).length ∧
    ∃ m1 pt m2, new_process boot 2 3 = .ret () m1 ∧ get_page_table m1 2 = some pt ∧
      kill_process m1 2 = some m2 ∧ m2 (pt.val : Int) = 0 ∧
      get_page_table m2 2 = some pt := by
  obtain ⟨m1, pt, m2, h1, h2, h3, h4, h5⟩ :=
    kill_process_stale_pointer boot 2 3 (by decide) (by decide) (by decide) (by decide)
      (by decide) (by decide)
  refine ⟨by decide, by decide, m1, pt, m2, h1, h2, h3, h4, h5 ?_⟩
  have hm1 : m1 = (new_process boot 2 3).memory := by rw [h1]; rfl
  subst hm1
  have hpt : pt = 1 := Option.some.inj (h2.symm.trans (by decide))
  subst hpt
  have key : ∀ i : Int, 3 ≤ i → i < 64 →
      (((new_process boot 2 3).memory (get_address ((1 : Byte).val : Int) i)).val : Int)
        ≠ 64 + 2 := by decide
  exact fun i _ hi1 hi2 => key i hi1 hi2

set_option maxRecDepth 100000 in
/-- C14, as stated, fails: in the memory left by `initialize_mem()` and `sb 5 261 66` page 0
is marked allocated and 63 pages are free; `new_process(2, 3)` takes page 1 as the page
table, so `get_page_table(2)` is 1; entry 5 of page 1 still holds 66, so `kill_process(2)`
writes 0 to `mem[66]`, the pointer slot of process 2, and `get_page_table(2)` is 0 after the
kill. -/
theorem kill_process_clears_pointer :
    store_value boot 5 261 66 = some staleSlotMem ∧
    staleSlotMem 0 ≠ 0 ∧ (3 : Int) + 1 ≤ (freeList staleSlotMem).length ∧
    (run staleSlotMem [.np 2 3]).byteAt (get_address 1 5) = some 66 ∧
    get_page_table (run staleSlotMem [.np 2 3]).memory 2 = some 1 ∧
    (run staleSlotMem [.np 2 3, .kp 2]).byteAt 66 = some 0 ∧
    get_page_table (run staleSlotMem [.np 2 3, .kp 2]).memory 2 = some 0 :=
  ⟨by rfl, by decide, by decide, by decide, by decide, by decide, by decide⟩


/-- C17 (amended): for `0 ≤ p < 192` and `0 ≤ n < 64`, in a state where page 0 is marked
allocated and at least `n + 1` pages are free, after `new_process(p, n)` the call
`kill_process(p)` returns and changes the bitmap entry of no page in `1 .. 63` other than
the page-table page of `p` and the pages whose numbers the entries `1 .. 63` of its page
table hold; and every bitmap entry that was free before the kill is free after it. -/
theorem kill_process_frame (m : Mem) (p n : Int) (hp0 : 0 ≤ p) (hp1 : p < 192)
    (hn0 : 0 ≤ n) (hn1 : n < 64) (h0 : m 0 ≠ 0) (hfree : n + 1 ≤ (freeList m).length) :
    ∃ m1 pt m2, new_process m p n = .ret () m1 ∧ get_page_table m1 p = some pt ∧
      kill_process m1 p = some m2 ∧
      (∀ a, 1 ≤ a → a < 64 → a ≠ (pt.val : Int) →
        (∀ i, 1 ≤ i → i < 64 → ((m1 (get_address pt.val i)).val : Int) ≠ a) →
        m2 a = m1 a) ∧
      (∀ a, 0 ≤ a → a < 64 → m1 a = 0 → m2 a = 0) := by
  obtain ⟨m1, pt, rest, hL, hpt1, hpt2, hrun, hfl, hptr, hent, htk, hfr⟩ :=
    new_process_spec m p n hp0 hp1 hn0 hn1 h0 hfree
  have hv : ((toByte pt).val : Int) = pt := toByte_val pt (by omega) (by omega)
  have hslot : ((m1 (64 + p)).val : Int) = pt := by rw [hptr]; exact hv
  obtain ⟨m2, hkill, hfpt, hfent, hframe, -⟩ :=
    kill_process_spec m1 p hp0 hp1 (by omega) (by omega)
  rw [hslot] at hfpt hfent hframe
  have haddr : ∀ i, 0 ≤ i → i < 64 → get_address pt i = pt * 256 + i :=
    fun i hi0 hi1 => get_address_eq pt i (by omega) hi0 (by omega)
  refine ⟨m1, toByte pt, m2, hrun, ?_, hkill, ?_, ?_⟩
  · rw [get_page_table_eq m1 p hp0 hp1, hptr]
  · intro a _ _ hapt hnamed
    rw [hv] at hapt hnamed
    apply hframe a hapt
    intro j hj1 hj2
    have := hnamed j hj1 hj2
    rw [haddr j (by omega) hj2] at this
    exact fun h => this h.symm
  · intro a _ _ hz
    by_cases hapt : a = pt
    · rw [hapt]; exact hfpt
    · by_cases hnamed : ∃ j, 1 ≤ j ∧ j < 64 ∧ a = ((m1 (pt * 256 + j)).val : Int)
      · obtain ⟨j, hj1, hj2, hj3⟩ := hnamed
        rw [hj3]
        exact hfent j hj1 hj2
      · rw [hframe a hapt (fun j hj1 hj2 h => hnamed ⟨j, hj1, hj2, h⟩)]
        exact hz

set_option maxRecDepth 100000 in
/-- Witness of C17 on the initialized memory: `new_process(2, 3)` then `kill_process(2)`. -/
theorem kill_process_frame_witness :
    boot 0 ≠ 0 ∧ (3 : Int) + 1 ≤ (freeList boot).length ∧
    ∃ m1 pt m2, new_process boot 2 3 = .ret () m1 ∧ get_page_table m1 2 = some pt ∧
      kill_process m1 2 = some m2 ∧
      (∀ a, 1 ≤ a → a < 64 → a ≠ (pt.val : Int) →
        (∀ i, 1 ≤ i → i < 64 → ((m1 (get_address pt.val i)).val : Int) ≠ a) →
        m2 a = m1 a) ∧
      (∀ a, 0 ≤ a → a < 64 → m1 a = 0 → m2 a = 0) :=
  ⟨by decide, by decide,
   kill_process_frame boot 2 3 (by decide) (by decide) (by decide) (by decide) (by decide)
     (by decide)⟩

set_option maxRecDepth 100000 in
/-- C17, as stated, fails: after `initialize_mem()`, `new_process(1, 1)` (page table 1,
entry 0 names page 2) and `sb 9 773 2` (byte 5 of free page 3 holds 2), page 0 is marked
allocated; `new_process(2, 1)` takes page 3 as page table and page 4 as data page;
`kill_process(2)` then clears the bitmap entry of page 2, a page of the live process 1. -/
theorem kill_process_frees_foreign_page :
    (run boot [.np 1 1, .sb 9 773 2]).byteAt 0 = some 1 ∧
    (run boot [.np 1 1, .sb 9 773 2, .np 2 1]).byteAt 65 = some 1 ∧
    (run boot [.np 1 1, .sb 9 773 2, .np 2 1]).byteAt (get_address 1 0) = some 2 ∧
    (run boot [.np 1 1, .sb 9 773 2, .np 2 1]).byteAt 66 = some 3 ∧
    (run boot [.np 1 1, .sb 9 773 2, .np 2 1]).byteAt (get_address 3 0) = some 4 ∧
    (run boot [.np 1 1, .sb 9 773 2, .np 2 1]).byteAt (get_address 3 5) = some 2 ∧
    (run boot [.np 1 1, .sb 9 773 2, .np 2 1]).byteAt 2 = some 1 ∧
    (run boot [.np 1 1, .sb 9 773 2, .np 2 1, .kp 2]).byteAt 2 = some 0 :=
  ⟨by decide, by decide, by decide, by decide, by decide, by decide, by decide, by decide⟩

/-- C18 (amended): for `0 ≤ p < 192` and `0 ≤ n < 64`, in a state where page 0 is marked
allocated and at least `n + 1` pages are free, `new_process(p, n)` returns and the page table
of `p` has nonzero entries at the indices `0 .. n-1`, while its entries `n .. 63` hold the
bytes that page held before the call. -/
theorem new_process_entries (m : Mem) (p n : Int) (hp0 : 0 ≤ p) (hp1 : p < 192)
    (hn0 : 0 ≤ n) (hn1 : n < 64) (h0 : m 0 ≠ 0) (hfree : n + 1 ≤ (freeList m).length) :
    ∃ m1 pt, new_process m p n = .ret () m1 ∧ get_page_table m1 p = some pt ∧
      (∀ i, 0 ≤ i → i < n → m1 (get_address pt.val i) ≠ 0) ∧
      (∀ i, n ≤ i → i < 64 → m1 (get_address pt.val i) = m (get_address pt.val i)) := by
  obtain ⟨m1, pt, rest, hL, hpt1, hpt2, hrun, hfl, hptr, hent, htk, hfr⟩ :=
    new_process_spec m p n hp0 hp1 hn0 hn1 h0 hfree
  have hv : ((toByte pt).val : Int) = pt := toByte_val pt (by omega) (by omega)
  have hlen : n.toNat ≤ rest.length := by
    rw [hL] at hfree
    simp at hfree
    omega
  have haddr : ∀ i, 0 ≤ i → i < 64 → get_address pt i = pt * 256 + i :=
    fun i hi0 hi1 => get_address_eq pt i (by omega) hi0 (by omega)
  refine ⟨m1, toByte pt, hrun, ?_, ?_, ?_⟩
  · rw [get_page_table_eq m1 p hp0 hp1, hptr]
  · intro i hi0 hi1
    rw [hv]
    have hj : i.toNat < rest.length := by omega
    have hq : rest[i.toNat]? = some rest[i.toNat] := List.getElem?_eq_getElem hj
    have he := entry_val m m1 pt _ rest i.toNat hL hq (hent i.toNat _ (by omega) hq) (by omega)
    have hcast : ((i.toNat : Nat) : Int) = i := by omega
    rw [hcast] at he
    intro hz
    have hval := he.2.1
    rw [hz] at hval
    have hq0 : rest[i.toNat] = 0 := by
      rw [← hval]
      rfl
    rw [hq0] at he
    exact h0 he.2.2.2.2
  · intro i hi0 hi1
    rw [hv, haddr i (by omega) hi1]
    apply hfr
    · intro hmem
      have := (mem_freeList m _).1 (by rw [hL]; exact List.mem_of_mem_take hmem)
      omega
    · omega
    · omega

set_option maxRecDepth 100000 in
/-- Witness of C18 on the initialized memory: `new_process(2, 3)`. -/
theorem new_process_entries_witness :
    boot 0 ≠ 0 ∧ (3 : Int) + 1 ≤ (freeList boot).length ∧
    ∃ m1 pt, new_process boot 2 3 = .ret () m1 ∧ get_page_table m1 2 = some pt ∧
      (∀ i, 0 ≤ i → i < 3 → m1 (get_address pt.val i) ≠ 0) ∧
      (∀ i, 3 ≤ i → i < 64 → m1 (get_address pt.val i) = boot (get_address pt.val i)) :=
  ⟨by decide, by decide,
   new_process_entries boot 2 3 (by decide) (by decide) (by decide) (by decide) (by decide)
     (by decide)⟩

set_option maxRecDepth 100000 in
/-- C18, as stated, fails: after `initialize_mem()`, `new_process(1, 3)`, `kill_process(1)`
and `new_process(2, 0)`, page 0 is marked allocated and `new_process(3, 1)` takes page 1, the
page table of the killed process 1, as its page table: entry 0 gets the new page 3, and the
entries 1 and 2 still hold 3 and 4, so the page table of process 3 shows three mappings. -/
theorem new_process_keeps_old_entries :
    (run boot [.np 1 3, .kp 1, .np 2 0]).byteAt 0 = some 1 ∧
    (run boot [.np 1 3, .kp 1, .np 2 0, .np 3 1]).byteAt 67 = some 1 ∧
    (run boot [.np 1 3, .kp 1, .np 2 0, .np 3 1]).byteAt (get_address 1 0) = some 3 ∧
    (run boot [.np 1 3, .kp 1, .np 2 0, .np 3 1]).byteAt (get_address 1 1) = some 3 ∧
    (run boot [.np 1 3, .kp 1, .np 2 0, .np 3 1]).byteAt (get_address 1 2) = some 4 :=
  ⟨by decide, by decide, by decide, by decide, by decide⟩


/-! ## Out of memory during process creation -/

theorem allocate_page_one_ret (m : Mem) : ∃ i m1, allocate_page m 1 = .ret i m1 := by
  cases hl : freeList m with
  | nil => exact ⟨_, _, allocate_page_nil_one m hl⟩
  | cons a rest => exact ⟨_, _, (allocate_page_cons m 1 a rest hl).1⟩

/-- The loop of `new_process` for process 1 never terminates the simulator. -/
theorem new_process_loop_one (pt : Int) (k : Nat) :
    ∀ (i : Int) (m : Mem) (s : Int) (m1 : Mem),
      new_process_loop 1 pt k i m ≠ .exited s m1 := by
  induction k with
  | zero =>
    intro i m s m1 h
    simp [new_process_loop] at h
  | succ k ih =>
    intro i m s m1 h
    obtain ⟨a, ma, ha⟩ := allocate_page_one_ret m
    rw [new_process_loop, ha] at h
    dsimp only at h
    cases hst : store ma (get_address pt i) a with
    | none => rw [hst] at h; cases h
    | some m2 => rw [hst] at h; exact ih _ _ _ _ h

theorem new_process_one (m : Mem) (n s : Int) (m1 : Mem) :
    new_process m 1 n ≠ .exited s m1 := by
  intro h
  unfold new_process at h
  by_cases hn : n ≥ 64
  · rw [if_pos hn] at h; cases h
  · rw [if_neg hn] at h
    obtain ⟨a, ma, ha⟩ := allocate_page_one_ret m
    rw [ha] at h
    dsimp only at h
    cases hst : store ma (64 + 1) a with
    | none => rw [hst] at h; cases h
    | some m2 => rw [hst] at h; exact new_process_loop_one _ _ _ _ _ _ h

/-- The loop of `new_process` for a process other than 1 on a page table `pt` in `1..63`, when
the bitmap has fewer than `k` free pages: it takes every free page in order, writes them to
the entries from `i` on, and then terminates the simulator with status 1. -/
theorem new_process_loop_exit (p pt : Int) (hp : p ≠ 1) (hpt1 : 1 ≤ pt) (hpt2 : pt < 64)
    (k : Nat) :
    ∀ (i : Int) (m : Mem) (L : List Int), freeList m = L → L.length < k → 0 ≤ i →
      i + k ≤ 64 →
      ∃ m1, new_process_loop p pt k i m = .exited 1 m1 ∧ freeList m1 = [] ∧
        (∀ (j : Nat) (q : Int), L[j]? = some q → m1 (pt * 256 + i + j) = toByte q) ∧
        (∀ a, a ∈ L → m1 a = 1) ∧
        (∀ a, a ∉ L → ¬ (pt * 256 + i ≤ a ∧ a < pt * 256 + i + L.length) → m1 a = m a) := by
  induction k with
  | zero => intro i m L _ hk; omega
  | succ k ih =>
    intro i m L hL hk hi hik
    cases L with
    | nil =>
      refine ⟨m, ?_, hL, ?_, ?_, fun _ _ _ => rfl⟩
      · rw [new_process_loop, allocate_page_nil_ne m p hp hL]
      · intro j q hq; simp at hq
      · intro a ha; simp at ha
    | cons a rest =>
      obtain ⟨halloc, hfree⟩ := allocate_page_cons m p a rest hL
      have ha := (mem_freeList m a).1 (by rw [hL]; simp)
      have haddr : get_address pt i = pt * 256 + i :=
        get_address_eq pt i (by omega) hi (by omega)
      have hst := store_in (setByte m a 1) (pt * 256 + i) a (by omega) (by omega)
      have hfree2 : freeList (setByte (setByte m a 1) (pt * 256 + i) (toByte a)) = rest := by
        rw [← hfree]
        apply freeList_congr
        intro x hx1 hx2
        exact setByte_other _ _ _ _ (by omega)
      obtain ⟨m1, hrun, hfl, hent, htk, hfr⟩ :=
        ih (i + 1) _ rest hfree2 (by simpa using hk) (by omega) (by push_cast at hik; omega)
      have hrest : ∀ x, x ∈ rest → 0 ≤ x ∧ x < 64 := by
        intro x hx
        have h2 := (mem_freeList _ _).1 (by rw [hfree2]; exact hx)
        exact ⟨h2.1, h2.2.1⟩
      refine ⟨m1, ?_, hfl, ?_, ?_, ?_⟩
      · simp only [new_process_loop, halloc, haddr, hst]
        exact hrun
      · intro j q hq
        cases j with
        | zero =>
          simp at hq
          subst hq
          have hnot : (pt * 256 + i) ∉ rest := by
            intro hmem
            have := hrest _ hmem
            omega
          rw [Nat.cast_zero, add_zero, hfr _ hnot (by omega), setByte_same]
        | succ j =>
          simp at hq
          have := hent j q hq
          rw [← this]
          congr 1
          push_cast
          ring
      · intro x hx
        rw [List.mem_cons] at hx
        by_cases hxr : x ∈ rest
        · exact htk x hxr
        · rcases hx with rfl | hx
          · rw [hfr _ hxr (by omega), setByte_other _ _ _ _ (by omega), setByte_same]
          · exact absurd hx hxr
      · intro x hx hrange
        rw [List.mem_cons, not_or] at hx
        simp only [List.length_cons] at hrange
        rw [hfr x hx.2 (by push_cast at hrange; omega),
          setByte_other _ _ _ _ (by push_cast at hrange; omega), setByte_other _ _ _ _ hx.1]


/-- `new_process(p, n)` for `p ≠ 1`, `n < 64`, page 0 allocated and fewer than `n + 1` free
pages: the simulator terminates with status 1, and the memory at that point has every page
that was free marked allocated, the first of them in the pointer slot of `p` and the others
in the entries of that page table. -/
theorem new_process_exit_spec (m : Mem) (p n : Int) (hp0 : 0 ≤ p) (hp1 : p < 192)
    (hp : p ≠ 1) (hn0 : 0 ≤ n) (hn1 : n < 64) (h0 : m 0 ≠ 0)
    (hlen : ((freeList m).length : Int) < n + 1) :
    ∃ m1, new_process m p n = .exited 1 m1 ∧
      (∀ a, a ∈ freeList m → m1 a = 1) ∧
      (∀ a, 0 ≤ a → a < 64 → m a ≠ 0 → m1 a = m a) ∧
      (∀ pt rest, freeList m = pt :: rest →
        get_page_table m1 p = some (toByte pt) ∧
        ∀ (j : Nat) (q : Int), rest[j]? = some q →
          load m1 (get_address pt j) = some (toByte q)) := by
  cases hL : freeList m with
  | nil =>
    refine ⟨m, ?_, ?_, fun _ _ _ _ => rfl, ?_⟩
    · simp only [new_process, ge_iff_le, if_neg (not_le.2 hn1), allocate_page_nil_ne m p hp hL]
    · intro a ha; simp at ha
    · intro pt rest h; cases h
  | cons pt rest =>
    obtain ⟨halloc, hfl⟩ := allocate_page_cons m p pt rest hL
    obtain ⟨hpt0, hpt2, hpt3⟩ := (mem_freeList m pt).1 (by rw [hL]; simp)
    have hpt1 : 1 ≤ pt := by
      by_contra hlt
      have : pt = 0 := by omega
      subst this
      exact h0 hpt3
    have hst := store_in (setByte m pt 1) (64 + p) pt (by omega) (by omega)
    have hfl2 : freeList (setByte (setByte m pt 1) (64 + p) (toByte pt)) = rest := by
      rw [← hfl]
      apply freeList_congr
      intro x hx1 hx2
      exact setByte_other _ _ _ _ (by omega)
    have hlen2 : rest.length < n.toNat := by
      rw [hL] at hlen
      simp at hlen
      omega
    obtain ⟨m1, hrun, hfl3, hent, htk, hfr⟩ :=
      new_process_loop_exit p pt hp hpt1 hpt2 n.toNat 0 _ rest hfl2 hlen2 (le_refl _)
        (by omega)
    have hrest : ∀ x, x ∈ rest → 0 ≤ x ∧ x < 64 ∧ m x = 0 := by
      intro x hx
      exact (mem_freeList m x).1 (by rw [hL]; exact List.mem_cons_of_mem _ hx)
    refine ⟨m1, ?_, ?_, ?_, ?_⟩
    · simp only [new_process, ge_iff_le, if_neg (not_le.2 hn1), halloc, hst]
      exact hrun
    · intro x hx
      rw [List.mem_cons] at hx
      by_cases hxr : x ∈ rest
      · exact htk x hxr
      · rcases hx with rfl | hx
        · rw [hfr _ hxr (by omega), setByte_other _ _ _ _ (by omega), setByte_same]
        · exact absurd hx hxr
    · intro x hx0 hx1 hnz
      have hxr : x ∉ rest := fun hmem => hnz (hrest x hmem).2.2
      have hxpt : x ≠ pt := fun h => hnz (h ▸ hpt3)
      rw [hfr x hxr (by omega), setByte_other _ _ _ _ (by omega), setByte_other _ _ _ _ hxpt]
    · intro pt2 rest2 heq
      obtain ⟨hpt_eq, hrest_eq⟩ := List.cons.inj heq
      subst hpt_eq
      subst hrest_eq
      constructor
      · have hnot : (64 + p) ∉ rest := by
          intro hmem
          have := hrest _ hmem
          omega
        rw [get_page_table_eq m1 p hp0 hp1, hfr _ hnot (by omega), setByte_same]
      · intro j q hq
        have hj : j < rest.length := by
          by_contra hge
          rw [List.getElem?_eq_none (by omega)] at hq
          cases hq
        have haddr := get_address_eq pt j (by omega) (by omega) (by omega)
        rw [haddr, load_in _ _ (by omega) (by omega)]
        have := hent j q hq
        rw [add_zero] at this
        rw [this]

/-- C11: for `0 ≤ p < 192` and `n ≥ 0`, in a state where page 0 is marked allocated,
`new_process(p, n)` terminates the simulator exactly when `p ≠ 1`, `n < 64` and fewer than
`n + 1` bitmap entries are free, and then with exit status 1; at that point every page that
was free is marked allocated, no bitmap entry that was allocated has changed, the first
allocated page is in the page-table-pointer slot of `p` and the following ones are in the
entries `0, 1, ...` of that page table (no rollback). -/
theorem new_process_fatal (m : Mem) (p n : Int) (hp0 : 0 ≤ p) (hp1 : p < 192) (hn0 : 0 ≤ n)
    (h0 : m 0 ≠ 0) :
    ((∃ s m1, new_process m p n = .exited s m1) ↔
      (p ≠ 1 ∧ n < 64 ∧ ((freeList m).length : Int) < n + 1)) ∧
    (∀ s m1, new_process m p n = .exited s m1 →
      s = 1 ∧
      (∀ a, a ∈ freeList m → m1 a = 1) ∧
      (∀ a, 0 ≤ a → a < 64 → m a ≠ 0 → m1 a = m a) ∧
      (∀ pt rest, freeList m = pt :: rest →
        get_page_table m1 p = some (toByte pt) ∧
        ∀ (j : Nat) (q : Int), rest[j]? = some q →
          load m1 (get_address pt j) = some (toByte q))) := by
  have hcond : ∀ s m1, new_process m p n = .exited s m1 →
      p ≠ 1 ∧ n < 64 ∧ ((freeList m).length : Int) < n + 1 := by
    intro s m1 h
    have hp : p ≠ 1 := by
      intro hp
      subst hp
      exact new_process_one m n s m1 h
    have hn1 : n < 64 := by
      by_contra hn
      unfold new_process at h
      rw [if_pos (by omega : n ≥ 64)] at h
      cases h
    refine ⟨hp, hn1, ?_⟩
    by_contra hlen
    obtain ⟨m2, pt, rest, -, -, -, hrun, -⟩ :=
      new_process_spec m p n hp0 hp1 hn0 hn1 h0 (by omega)
    rw [hrun] at h
    cases h
  constructor
  · constructor
    · rintro ⟨s, m1, h⟩
      exact hcond s m1 h
    · rintro ⟨hp, hn1, hlen⟩
      obtain ⟨m1, hrun, -⟩ := new_process_exit_spec m p n hp0 hp1 hp hn0 hn1 h0 hlen
      exact ⟨1, m1, hrun⟩
  · intro s m1 h
    obtain ⟨hp, hn1, hlen⟩ := hcond s m1 h
    obtain ⟨m2, hrun, h1, h2, h3⟩ := new_process_exit_spec m p n hp0 hp1 hp hn0 hn1 h0 hlen
    rw [hrun] at h
    obtain ⟨rfl, rfl⟩ := Outcome.exited.inj h
    exact ⟨rfl, h1, h2, h3⟩

set_option maxRecDepth 100000 in
/-- Witness of C11: `new_process(2, 3)` on a memory with page 0 marked allocated and two free
pages terminates the simulator. -/
theorem new_process_fatal_witness :
    (0 : Int) ≤ 2 ∧ (2 : Int) < 192 ∧ (0 : Int) ≤ 3 ∧ twoFreeMem 0 ≠ 0 ∧
    ((2 : Int) ≠ 1 ∧ (3 : Int) < 64 ∧ ((freeList twoFreeMem).length : Int) < 3 + 1) ∧
    ∃ s m1, new_process twoFreeMem 2 3 = .exited s m1 :=
  ⟨by decide, by decide, by decide, by decide, by decide,
   (new_process_fatal twoFreeMem 2 3 (by decide) (by decide) (by decide) (by decide)).1.2
     (by decide)⟩

end Ptsim
